import Mathlib

/-!
Shallow embedding of `src/xml_factory/_xml_factory.py` (class `XmlFactory`).

Python strings are modelled through their character lists (`String.data`):
`s.split(sep)`, `s.rsplit(sep)` (no maxsplit, hence equal to `split`),
`s.endswith(c)`, `s[:-1]` and `c in s` are translated to explicit recursive
functions on `List Char` with Python's semantics.

An `ElementTree.Element` is a tree node with a tag, an ordered attribute
dictionary (string keys, string values, insertion order kept, assignment
replaces in place), optional text and an ordered list of children.  Python
mutates elements through shared references; the embedding is pure, so an
operation on a tree returns the updated root together with the path of child
indices that identifies the element the Python code would hold a reference
to (the empty path is the root itself).
-/

namespace XmlFactory

/-- Python `s.split(sep)` on character lists: `''.split(sep) = ['']`,
separators at the ends produce empty parts. -/
def splitChars (sep : Char) : List Char → List (List Char)
  | [] => [[]]
  | c :: rest =>
    match splitChars sep rest with
    | [] => [[]]
    | s :: ss => if c = sep then [] :: s :: ss else (c :: s) :: ss

/-- Python `name.split('/')`. -/
def splitSlash (s : String) : List String :=
  (splitChars '/' s.data).map String.mk

/-- Python `name.rsplit('@')` with no maxsplit, which splits at every
occurrence, exactly like `name.split('@')`. -/
def splitAtSign (s : String) : List String :=
  (splitChars '@' s.data).map String.mk

/-- Python `'@' in name`. -/
def containsAtSign (s : String) : Bool :=
  s.data.any (fun c => c = '@')

/-- Python `i_part.endswith('+')`. -/
def endsWithPlus (s : String) : Bool :=
  s.data.getLast? == some '+'

/-- Number of occurrences of a character in a character list. -/
def countChar (ch : Char) : List Char → Nat
  | [] => 0
  | c :: cs => (if c = ch then 1 else 0) + countChar ch cs

/-- Python `i_part[:-1]`. -/
def dropLastChar (s : String) : String :=
  String.mk s.data.dropLast

/-- `xml.etree.ElementTree.Element`: tag, attribute dictionary, text,
children. -/
inductive Element where
  | mk (tag : String) (attrib : List (String × String)) (text : Option String)
      (children : List Element)

def Element.tag : Element → String
  | .mk t _ _ _ => t

def Element.attrib : Element → List (String × String)
  | .mk _ a _ _ => a

def Element.text : Element → Option String
  | .mk _ _ x _ => x

def Element.children : Element → List Element
  | .mk _ _ _ c => c

/-- `ElementTree.Element(tag)`: fresh element, no attributes, no text, no
children. -/
def newElement (t : String) : Element :=
  .mk t [] none []

/-- Replace the children list, keeping tag, attributes and text. -/
def Element.withChildren : Element → List Element → Element
  | .mk t a x _, cs => .mk t a x cs

/-- Python dict assignment `d[k] = v`: replace the value of an existing key
in place, else append the new binding. -/
def setKey (k v : String) : List (String × String) → List (String × String)
  | [] => [(k, v)]
  | (k1, v1) :: rest => if k1 = k then (k, v) :: rest else (k1, v1) :: setKey k v rest

/-- Python dict lookup `d[k]` (first binding of the key). -/
def lookupKey (k : String) : List (String × String) → Option String
  | [] => none
  | (k1, v1) :: rest => if k1 = k then some v1 else lookupKey k rest

/-- `result.attrib[attr_name] = value`. -/
def Element.setAttr : Element → String → String → Element
  | .mk t a x c, k, v => .mk t (setKey k v a) x c

/-- `result.text = value`. -/
def Element.setText : Element → String → Element
  | .mk t a _ c, s => .mk t a (some s) c

/-- `parent.find(tag)` for a plain tag name: index of the first direct child
whose tag equals `tag`, in document order. -/
def findChildIdx (t : String) : List Element → Option Nat
  | [] => none
  | c :: cs => if c.tag = t then some 0 else (findChildIdx t cs).map (· + 1)

/-- Follow a path of child indices down from an element. -/
def getAt : Element → List Nat → Option Element
  | e, [] => some e
  | e, i :: rest =>
    match e.children[i]? with
    | some c => getAt c rest
    | none => none

/-- Apply `f` to the element a path of child indices leads to (identity when
the path is invalid). -/
def updAt (f : Element → Element) : Element → List Nat → Element
  | e, [] => f e
  | e, i :: rest =>
    match e.children[i]? with
    | some c => e.withChildren (e.children.set i (updAt f c rest))
    | none => e

mutual

/-- Number of elements in the tree (the node itself plus all descendants). -/
def countElems : Element → Nat
  | .mk _ _ _ cs => 1 + countList cs

def countList : List Element → Nat
  | [] => 0
  | c :: cs => countElems c + countList cs

end

/-- One iteration of the loop in `_ObtainElement` for the segment `part`:
if `part` ends with `'+'` strip the marker and unconditionally append a new
child (`ElementTree.SubElement`); otherwise reuse the first child found with
that tag, appending a new one only when `find` returns `None`.  Returns the
updated parent and the index of the resolved child. -/
def obtainStep (parent : Element) (part : String) : Element × Nat :=
  if endsWithPlus part then
    (parent.withChildren (parent.children ++ [newElement (dropLastChar part)]),
     parent.children.length)
  else
    match findChildIdx part parent.children with
    | some i => (parent, i)
    | none =>
      (parent.withChildren (parent.children ++ [newElement part]),
       parent.children.length)

/-- The loop of `_ObtainElement` over the list of path segments: each
resolved child becomes the parent for the next segment.  Returns the updated
tree and the index path of the final resolved element. -/
def obtainAux : Element → List String → Element × List Nat
  | e, [] => (e, [])
  | e, part :: rest =>
    let s := obtainStep e part
    let c := (s.1.children[s.2]?).getD (newElement "")
    let r := obtainAux c rest
    (s.1.withChildren (s.1.children.set s.2 r.1), s.2 :: r.2)

/-- `XmlFactory._ObtainElement(name)`: the empty path resolves to the root
itself, otherwise the path is split on `'/'` and walked. -/
def ObtainElement (root : Element) (name : String) : Element × List Nat :=
  if name = "" then (root, [])
  else obtainAux root (splitSlash name)

/-- Python values that can be assigned; `str(value)` / `six.text_type(value)`
stringify them. -/
inductive PyValue where
  | str (s : String)
  | int (n : Int)

/-- `str(value)`. -/
def pyStr : PyValue → String
  | .str s => s
  | .int n => toString n

/-- `XmlFactory.__setitem__(name, value)`.  With an `'@'` in `name` the code
runs `element_name, attr_name = name.rsplit('@')`; unpacking raises
`ValueError` (modelled as `none`) unless the split has exactly two parts,
and this happens before any tree mutation.  Otherwise the whole name is
resolved and the element's text is set.  The result carries the updated tree
and the path of the affected element (the facade returned wraps it). -/
def setitem (root : Element) (name : String) (value : PyValue) :
    Option (Element × List Nat) :=
  if containsAtSign name then
    match splitAtSign name with
    | [elementName, attrName] =>
      let r := ObtainElement root elementName
      some (updAt (fun e => e.setAttr attrName (pyStr value)) r.1 r.2, r.2)
    | _ => none
  else
    let r := ObtainElement root name
    some (updAt (fun e => e.setText (pyStr value)) r.1 r.2, r.2)

/-- `XmlFactory.__getitem__(name)`: asserts `'@' not in name` (modelled as
`none`), then resolves the path. -/
def getitem (root : Element) (name : String) : Option (Element × List Nat) :=
  if containsAtSign name then none
  else some (ObtainElement root name)

/-- The possible arguments of `XmlFactory.__init__`: a string, an existing
`Element`, or anything else. -/
inductive RootArg where
  | str (s : String)
  | elem (e : Element)
  | other

/-- `XmlFactory.__init__(root_element)`: a string creates a fresh root
element, an `Element` is wrapped, anything else raises `TypeError`
(modelled as `none`). -/
def factoryInit : RootArg → Option Element
  | .str s => some (newElement s)
  | .elem e => some e
  | .other => none

/-- The fixed XML declaration line written by `Print` when `xml_header` is
set. -/
def xmlHeaderLine : String := "<?xml version=\"1.0\" ?>\n"

/-- `XmlFactory.Print(oss, xml_header)`.  Modelled from the spec: the
external pretty-printing collaborator `WritePrettyXMLElement` (file
`_pretty_xml.py`, not present in the sources) is taken as an arbitrary
rendering function `pretty`.  A stream is the string written so far; `Print`
appends the optional header line, then the rendered tree. -/
def PrintTo (pretty : Element → String) (root : Element) (header : Bool)
    (oss : String) : String :=
  let oss1 := if header then oss ++ xmlHeaderLine else oss
  oss1 ++ pretty root

/-- `XmlFactory.GetContents(xml_header)`: render through `Print` into a
fresh in-memory buffer (`StringIO()`) and return its value. -/
def GetContents (pretty : Element → String) (root : Element) (header : Bool) :
    String :=
  PrintTo pretty root header ""

/-- `parts` resolves in `e` to the index path `pth` purely by `find`:
every segment is non-force and a matching child exists at every level, so
`_ObtainElement` creates nothing and leaves the tree unchanged. -/
inductive Finds : Element → List String → List Nat → Prop where
  | nil (e : Element) : Finds e [] []
  | cons {e : Element} {part : String} {rest : List String} {i : Nat}
      {c : Element} {tl : List Nat}
      (hnf : endsWithPlus part = false)
      (hfind : findChildIdx part e.children = some i)
      (hget : e.children[i]? = some c)
      (hrest : Finds c rest tl) : Finds e (part :: rest) (i :: tl)

/-! ### Auxiliary list lemmas -/

theorem set_of_getElem? {α : Type} :
    ∀ (l : List α) (i : Nat) (a : α), l[i]? = some a → l.set i a = l := by
  intro l
  induction l with
  | nil => intro i a h; simp at h
  | cons x xs ih =>
    intro i a h
    cases i with
    | zero => simp at h; simp [h]
    | succ j => simp at h ⊢; exact ih j a h

theorem lt_of_getElem? {α : Type} {l : List α} {i : Nat} {a : α}
    (h : l[i]? = some a) : i < l.length :=
  (List.getElem?_eq_some.mp h).1

/-! ### Element structure lemmas -/

theorem Element.eta (e : Element) : Element.mk e.tag e.attrib e.text e.children = e := by
  cases e; rfl

theorem withChildren_self (e : Element) : e.withChildren e.children = e := by
  cases e; rfl

theorem tag_withChildren (e : Element) (cs : List Element) :
    (e.withChildren cs).tag = e.tag := by
  cases e; rfl

theorem attrib_withChildren (e : Element) (cs : List Element) :
    (e.withChildren cs).attrib = e.attrib := by
  cases e; rfl

theorem text_withChildren (e : Element) (cs : List Element) :
    (e.withChildren cs).text = e.text := by
  cases e; rfl

theorem children_withChildren (e : Element) (cs : List Element) :
    (e.withChildren cs).children = cs := by
  cases e; rfl

theorem tag_setText (e : Element) (s : String) : (e.setText s).tag = e.tag := by
  cases e; rfl

theorem children_setText (e : Element) (s : String) :
    (e.setText s).children = e.children := by
  cases e; rfl

theorem text_setText (e : Element) (s : String) : (e.setText s).text = some s := by
  cases e; rfl

theorem tag_setAttr (e : Element) (k v : String) : (e.setAttr k v).tag = e.tag := by
  cases e; rfl

theorem children_setAttr (e : Element) (k v : String) :
    (e.setAttr k v).children = e.children := by
  cases e; rfl

theorem text_setAttr (e : Element) (k v : String) : (e.setAttr k v).text = e.text := by
  cases e; rfl

theorem attrib_setAttr (e : Element) (k v : String) :
    (e.setAttr k v).attrib = setKey k v e.attrib := by
  cases e; rfl

/-! ### `findChildIdx` (the model of `parent.find(tag)`) -/

theorem findChildIdx_eq_none {t : String} :
    ∀ {cs : List Element}, findChildIdx t cs = none ↔ ∀ c ∈ cs, c.tag ≠ t := by
  intro cs
  induction cs with
  | nil => simp [findChildIdx]
  | cons c cs ih =>
    by_cases h : c.tag = t
    · simp [findChildIdx, h]
    · simp [findChildIdx, h, ih]

theorem findChildIdx_eq_some {t : String} :
    ∀ {cs : List Element} {i : Nat}, findChildIdx t cs = some i →
      ∃ c, cs[i]? = some c ∧ c.tag = t ∧
        ∀ j, j < i → ∀ c1, cs[j]? = some c1 → c1.tag ≠ t := by
  intro cs
  induction cs with
  | nil => intro i h; simp [findChildIdx] at h
  | cons c cs ih =>
    intro i h
    by_cases hc : c.tag = t
    · simp [findChildIdx, hc] at h
      subst h
      exact ⟨c, by simp, hc, by intro j hj; omega⟩
    · simp [findChildIdx, hc] at h
      obtain ⟨i1, h1, rfl⟩ := h
      obtain ⟨c1, hget, htag, hfirst⟩ := ih h1
      refine ⟨c1, by simpa using hget, htag, ?_⟩
      intro j hj c2 hc2
      cases j with
      | zero => simp at hc2; subst hc2; exact hc
      | succ j1 =>
        simp at hc2
        exact hfirst j1 (by omega) c2 hc2

theorem findChildIdx_append_of_none {t : String} {cs : List Element}
    (h : findChildIdx t cs = none) (c : Element) (hc : c.tag = t) :
    findChildIdx t (cs ++ [c]) = some cs.length := by
  induction cs with
  | nil => simp [findChildIdx, hc]
  | cons x xs ih =>
    by_cases hx : x.tag = t
    · simp [findChildIdx, hx] at h
    · simp [findChildIdx, hx] at h ⊢
      simp [ih h]

theorem findChildIdx_congr {t : String} :
    ∀ {cs ds : List Element}, cs.map Element.tag = ds.map Element.tag →
      findChildIdx t cs = findChildIdx t ds := by
  intro cs
  induction cs with
  | nil =>
    intro ds h
    cases ds with
    | nil => rfl
    | cons d ds => simp at h
  | cons c cs ih =>
    intro ds h
    cases ds with
    | nil => simp at h
    | cons d ds =>
      simp at h
      obtain ⟨h1, h2⟩ := h
      simp [findChildIdx, h1, ih h2]

/-! ### Resolution by pure lookup -/

theorem tag_obtainStep (e : Element) (part : String) :
    (obtainStep e part).1.tag = e.tag := by
  by_cases h : endsWithPlus part
  · simp [obtainStep, h, tag_withChildren]
  · cases hf : findChildIdx part e.children with
    | none => simp [obtainStep, h, hf, tag_withChildren]
    | some i => simp [obtainStep, h, hf]

theorem tag_obtainAux : ∀ (parts : List String) (e : Element),
    (obtainAux e parts).1.tag = e.tag := by
  intro parts
  cases parts with
  | nil => intro e; rfl
  | cons part rest =>
    intro e
    simp [obtainAux, tag_withChildren, tag_obtainStep]

theorem finds_obtainAux {e : Element} {parts : List String} {pth : List Nat}
    (h : Finds e parts pth) : obtainAux e parts = (e, pth) := by
  induction h with
  | nil e => rfl
  | @cons e part rest i c tl hnf hfind hget hrest ih =>
    have hstep : obtainStep e part = (e, i) := by
      simp [obtainStep, hnf, hfind]
    simp [obtainAux, hstep, hget, ih, set_of_getElem? _ _ _ hget, withChildren_self]

theorem tag_updAt (f : Element → Element) (hf : ∀ x, (f x).tag = x.tag) :
    ∀ (pth : List Nat) (c : Element), (updAt f c pth).tag = c.tag := by
  intro pth
  cases pth with
  | nil => intro c; exact hf c
  | cons i tl =>
    intro c
    cases h : c.children[i]? with
    | some d => simp [updAt, h, tag_withChildren]
    | none => simp [updAt, h]

theorem finds_updAt {f : Element → Element} (hf : ∀ x, (f x).tag = x.tag) :
    ∀ {e : Element} {parts : List String} {pth : List Nat},
      Finds e parts pth → Finds (updAt f e pth) parts pth := by
  intro e parts pth h
  induction h with
  | nil e => exact Finds.nil _
  | @cons e part rest i c tl hnf hfind hget hrest ih =>
    have hstep : updAt f e (i :: tl) =
        e.withChildren (e.children.set i (updAt f c tl)) := by
      simp [updAt, hget]
    rw [hstep]
    refine Finds.cons hnf ?_ ?_ ih
    · rw [children_withChildren]
      have hmap : (e.children.set i (updAt f c tl)).map Element.tag =
          e.children.map Element.tag := by
        rw [List.map_set, tag_updAt f hf tl c]
        apply set_of_getElem?
        rw [List.getElem?_map, hget]
        rfl
      rw [findChildIdx_congr hmap, hfind]
    · rw [children_withChildren, List.getElem?_set_self (lt_of_getElem? hget)]

theorem obtainAux_finds : ∀ (parts : List String),
    (∀ p ∈ parts, endsWithPlus p = false) →
    ∀ e : Element, Finds (obtainAux e parts).1 parts (obtainAux e parts).2 := by
  intro parts
  induction parts with
  | nil => intro _ e; exact Finds.nil _
  | cons part rest ih =>
    intro hall e
    have hnf : endsWithPlus part = false := hall part (by simp)
    have hrest : ∀ p ∈ rest, endsWithPlus p = false := fun p hp => hall p (by simp [hp])
    cases hf : findChildIdx part e.children with
    | some i =>
      obtain ⟨c, hget, htag, _⟩ := findChildIdx_eq_some hf
      have hstep : obtainStep e part = (e, i) := by
        simp [obtainStep, hnf, hf]
      have heq : obtainAux e (part :: rest) =
          (e.withChildren (e.children.set i (obtainAux c rest).1),
           i :: (obtainAux c rest).2) := by
        simp [obtainAux, hstep, hget]
      rw [heq]
      refine Finds.cons hnf ?_ ?_ (ih hrest c)
      · rw [children_withChildren]
        have hmap : (e.children.set i (obtainAux c rest).1).map Element.tag =
            e.children.map Element.tag := by
          rw [List.map_set, tag_obtainAux rest c]
          apply set_of_getElem?
          rw [List.getElem?_map, hget]
          rfl
        rw [findChildIdx_congr hmap, hf]
      · rw [children_withChildren, List.getElem?_set_self (lt_of_getElem? hget)]
    | none =>
      have hstep : obtainStep e part =
          (e.withChildren (e.children ++ [newElement part]), e.children.length) := by
        simp [obtainStep, hnf, hf]
      have hget : (e.withChildren (e.children ++ [newElement part])).children[e.children.length]? =
          some (newElement part) := by
        rw [children_withChildren]
        exact List.getElem?_concat_length _ _
      have heq : obtainAux e (part :: rest) =
          ((e.withChildren (e.children ++ [newElement part])).withChildren
             ((e.children ++ [newElement part]).set e.children.length
               (obtainAux (newElement part) rest).1),
           e.children.length :: (obtainAux (newElement part) rest).2) := by
        simp [obtainAux, hstep, hget, children_withChildren]
      rw [heq]
      refine Finds.cons hnf ?_ ?_ (ih hrest (newElement part))
      · rw [children_withChildren]
        have hmap : ((e.children ++ [newElement part]).set e.children.length
            (obtainAux (newElement part) rest).1).map Element.tag =
            (e.children ++ [newElement part]).map Element.tag := by
          rw [List.map_set, tag_obtainAux rest (newElement part)]
          apply set_of_getElem?
          rw [List.getElem?_map, List.getElem?_concat_length]
          rfl
        rw [findChildIdx_congr hmap]
        exact findChildIdx_append_of_none hf (newElement part) rfl
      · rw [children_withChildren,
          List.getElem?_set_self (by simp)]

theorem finds_getAt {e : Element} {parts : List String} {pth : List Nat}
    (h : Finds e parts pth) : ∃ x, getAt e pth = some x := by
  induction h with
  | nil e => exact ⟨e, rfl⟩
  | @cons e part rest i c tl hnf hfind hget hrest ih =>
    obtain ⟨x, hx⟩ := ih
    exact ⟨x, by simp [getAt, hget, hx]⟩

theorem getAt_updAt (f : Element → Element) :
    ∀ (pth : List Nat) (e x : Element), getAt e pth = some x →
      getAt (updAt f e pth) pth = some (f x) := by
  intro pth
  induction pth with
  | nil =>
    intro e x h
    simp [getAt] at h
    subst h
    simp [getAt, updAt]
  | cons i tl ih =>
    intro e x h
    cases hget : e.children[i]? with
    | none => simp [getAt, hget] at h
    | some c =>
      simp [getAt, hget] at h
      have hupd : updAt f e (i :: tl) =
          e.withChildren (e.children.set i (updAt f c tl)) := by
        simp [updAt, hget]
      rw [hupd]
      simp [getAt, children_withChildren, List.getElem?_set_self (lt_of_getElem? hget)]
      exact ih c x h

theorem withChildren_withChildren (e : Element) (cs ds : List Element) :
    (e.withChildren cs).withChildren ds = e.withChildren ds := by
  cases e; rfl

theorem obtainStep_lt (e : Element) (part : String) :
    (obtainStep e part).2 < (obtainStep e part).1.children.length := by
  by_cases h : endsWithPlus part
  · simp [obtainStep, h, children_withChildren]
  · cases hf : findChildIdx part e.children with
    | none => simp [obtainStep, h, hf, children_withChildren]
    | some i =>
      obtain ⟨c, hget, -, -⟩ := findChildIdx_eq_some hf
      simp [obtainStep, h, hf]
      exact lt_of_getElem? hget

theorem obtainAux_getAt : ∀ (parts : List String) (e : Element),
    ∃ x, getAt (obtainAux e parts).1 (obtainAux e parts).2 = some x := by
  intro parts
  induction parts with
  | nil => intro e; exact ⟨e, rfl⟩
  | cons part rest ih =>
    intro e
    rcases hs : obtainStep e part with ⟨e1, i⟩
    have hlt : i < e1.children.length := by
      have := obtainStep_lt e part
      rw [hs] at this
      exact this
    cases hc : e1.children[i]? with
    | none =>
      have := List.getElem?_eq_getElem hlt
      rw [hc] at this
      exact absurd this (by simp)
    | some c =>
      obtain ⟨x, hx⟩ := ih c
      refine ⟨x, ?_⟩
      simp only [obtainAux, hs, hc, Option.getD_some]
      simp [getAt, children_withChildren,
        List.getElem?_set_self (by simpa using hlt), hx]

/-! ### Element counting -/

theorem countElems_def (e : Element) : countElems e = 1 + countList e.children := by
  cases e; rfl

theorem countElems_withChildren (e : Element) (cs : List Element) :
    countElems (e.withChildren cs) = 1 + countList cs := by
  cases e; rfl

theorem countElems_setText (e : Element) (s : String) :
    countElems (e.setText s) = countElems e := by
  cases e; rfl

theorem countElems_setAttr (e : Element) (k v : String) :
    countElems (e.setAttr k v) = countElems e := by
  cases e; rfl

theorem countList_set : ∀ (l : List Element) (i : Nat) (c d : Element),
    l[i]? = some c → countList (l.set i d) + countElems c = countList l + countElems d := by
  intro l
  induction l with
  | nil => intro i c d h; simp at h
  | cons x xs ih =>
    intro i c d h
    cases i with
    | zero =>
      simp at h
      subst h
      simp [List.set, countList]
      omega
    | succ j =>
      simp at h
      have := ih j c d h
      simp [List.set, countList]
      omega

theorem countElems_updAt (f : Element → Element)
    (hf : ∀ x, countElems (f x) = countElems x) :
    ∀ (pth : List Nat) (e : Element), countElems (updAt f e pth) = countElems e := by
  intro pth
  induction pth with
  | nil => intro e; exact hf e
  | cons i tl ih =>
    intro e
    cases hget : e.children[i]? with
    | none => simp [updAt, hget]
    | some c =>
      simp only [updAt, hget, countElems_withChildren]
      have h1 := countList_set e.children i c (updAt f c tl) hget
      have h2 := ih c
      rw [countElems_def e]
      omega

/-! ### Splitting lemmas -/

theorem splitChars_of_not_mem {sep : Char} :
    ∀ {l : List Char}, sep ∉ l → splitChars sep l = [l] := by
  intro l
  induction l with
  | nil => intro _; rfl
  | cons c cs ih =>
    intro h
    simp at h
    obtain ⟨h1, h2⟩ := h
    have hc : ¬ (c = sep) := fun hc => h1 hc.symm
    simp [splitChars, ih h2, hc]

theorem splitChars_mid {sep : Char} :
    ∀ {l1 : List Char}, sep ∉ l1 → ∀ {l2 : List Char}, sep ∉ l2 →
      splitChars sep (l1 ++ sep :: l2) = [l1, l2] := by
  intro l1
  induction l1 with
  | nil =>
    intro _ l2 h2
    simp [splitChars, splitChars_of_not_mem h2]
  | cons c cs ih =>
    intro h1 l2 h2
    simp at h1
    obtain ⟨hc, hcs⟩ := h1
    have hcc : ¬ (c = sep) := fun h => hc h.symm
    simp [splitChars, ih hcs h2, hcc]

theorem splitChars_length {sep : Char} :
    ∀ (l : List Char), (splitChars sep l).length = countChar sep l + 1 := by
  intro l
  induction l with
  | nil => rfl
  | cons c cs ih =>
    cases h : splitChars sep cs with
    | nil => rw [h] at ih; simp at ih
    | cons s ss =>
      rw [h] at ih
      simp at ih
      by_cases hc : c = sep
      · simp [splitChars, h, hc, countChar]
        omega
      · simp [splitChars, h, hc, countChar]
        omega

theorem any_of_countChar {ch : Char} :
    ∀ {l : List Char}, 1 ≤ countChar ch l → l.any (fun c => c = ch) = true := by
  intro l
  induction l with
  | nil => intro h; simp [countChar] at h
  | cons c cs ih =>
    intro h
    by_cases hc : c = ch
    · simp [hc]
    · simp [countChar, hc] at h
      simp [hc, ih h]

theorem splitSlash_single {t : String} (h : ('/' : Char) ∉ t.data) :
    splitSlash t = [t] := by
  unfold splitSlash
  rw [splitChars_of_not_mem h]
  rfl

/-! ### Attribute dictionary lemmas -/

theorem lookupKey_setKey_self (k v : String) :
    ∀ (a : List (String × String)), lookupKey k (setKey k v a) = some v := by
  intro a
  induction a with
  | nil => simp [setKey, lookupKey]
  | cons p rest ih =>
    by_cases h : p.1 = k
    · simp [setKey, h, lookupKey]
    · simp [setKey, h, lookupKey, ih]

theorem lookupKey_setKey_of_ne (k k1 v : String) (hk : k1 ≠ k) :
    ∀ (a : List (String × String)), lookupKey k1 (setKey k v a) = lookupKey k1 a := by
  intro a
  induction a with
  | nil =>
    simp only [setKey, lookupKey]
    rw [if_neg (fun h => hk h.symm)]
  | cons p rest ih =>
    rcases p with ⟨pk, pv⟩
    by_cases h : pk = k
    · subst h
      simp only [setKey, if_pos rfl, lookupKey]
      rw [if_neg (fun h1 => hk h1.symm), if_neg (fun h1 => hk h1.symm)]
    · simp only [setKey, if_neg h, lookupKey]
      by_cases h2 : pk = k1
      · rw [if_pos h2, if_pos h2]
      · rw [if_neg h2, if_neg h2, ih]

/-! ### `ObtainElement` composite lemmas -/

theorem ObtainElement_finds {root : Element} {name : String} (hne : name ≠ "")
    (hnf : ∀ p ∈ splitSlash name, endsWithPlus p = false) :
    Finds (ObtainElement root name).1 (splitSlash name) (ObtainElement root name).2 := by
  unfold ObtainElement
  rw [if_neg hne]
  exact obtainAux_finds _ hnf root

theorem ObtainElement_getAt (root : Element) (name : String) :
    ∃ x, getAt (ObtainElement root name).1 (ObtainElement root name).2 = some x := by
  by_cases hne : name = ""
  · subst hne
    exact ⟨root, rfl⟩
  · unfold ObtainElement
    rw [if_neg hne]
    exact obtainAux_getAt _ root

theorem ObtainElement_stable {root : Element} {name : String}
    (hnf : ∀ p ∈ splitSlash name, endsWithPlus p = false)
    {f : Element → Element} (hf : ∀ x, (f x).tag = x.tag) :
    ObtainElement (updAt f (ObtainElement root name).1 (ObtainElement root name).2) name =
      (updAt f (ObtainElement root name).1 (ObtainElement root name).2,
       (ObtainElement root name).2) := by
  by_cases hne : name = ""
  · subst hne
    simp [ObtainElement, updAt]
  · have h1 := @ObtainElement_finds root name hne hnf
    have h2 := finds_updAt hf h1
    have h3 := finds_obtainAux h2
    conv_lhs => rw [ObtainElement, if_neg hne]
    rw [h3]

/-! ### Lemmas about the names `t ++ "+"` and `ep ++ "@" ++ an` -/

theorem data_append_plus (t : String) : (t ++ "+").data = t.data ++ ['+'] := by
  rw [String.data_append]

theorem endsWithPlus_append_plus (t : String) : endsWithPlus (t ++ "+") = true := by
  unfold endsWithPlus
  rw [data_append_plus, List.getLast?_concat]
  rfl

theorem dropLastChar_append_plus (t : String) : dropLastChar (t ++ "+") = t := by
  unfold dropLastChar
  rw [data_append_plus, List.dropLast_concat]

theorem append_plus_ne_empty (t : String) : t ++ "+" ≠ "" := by
  intro h
  have h1 := congrArg String.data h
  rw [data_append_plus] at h1
  simp at h1

theorem splitSlash_append_plus {t : String} (h : ('/' : Char) ∉ t.data) :
    splitSlash (t ++ "+") = [t ++ "+"] := by
  apply splitSlash_single
  rw [data_append_plus]
  simp [h]

theorem data_append_at (ep an : String) :
    (ep ++ "@" ++ an).data = ep.data ++ '@' :: an.data := by
  rw [String.data_append, String.data_append]
  simp

theorem containsAtSign_append_at (ep an : String) :
    containsAtSign (ep ++ "@" ++ an) = true := by
  unfold containsAtSign
  rw [data_append_at]
  apply List.any_eq_true.mpr
  exact ⟨'@', by simp, by simp⟩

theorem splitAtSign_append_at {ep an : String} (h1 : ('@' : Char) ∉ ep.data)
    (h2 : ('@' : Char) ∉ an.data) :
    splitAtSign (ep ++ "@" ++ an) = [ep, an] := by
  unfold splitAtSign
  rw [data_append_at, splitChars_mid h1 h2]
  rfl

/-- Resolving a single forced segment `t ++ "+"` appends a fresh child with
tag `t` and resolves to it, unconditionally. -/
theorem ObtainElement_force (root : Element) (t : String)
    (hs : ('/' : Char) ∉ t.data) :
    ObtainElement root (t ++ "+") =
      (root.withChildren (root.children ++ [newElement t]),
       [root.children.length]) := by
  unfold ObtainElement
  rw [if_neg (append_plus_ne_empty t), splitSlash_append_plus hs]
  have hstep : obtainStep root (t ++ "+") =
      (root.withChildren (root.children ++ [newElement t]), root.children.length) := by
    simp [obtainStep, endsWithPlus_append_plus, dropLastChar_append_plus]
  have hget : (root.withChildren (root.children ++ [newElement t])).children[root.children.length]? =
      some (newElement t) := by
    rw [children_withChildren]
    exact List.getElem?_concat_length _ _
  simp only [obtainAux, hstep, hget, Option.getD_some]
  rw [set_of_getElem? _ _ _ hget]
  simp [children_withChildren, withChildren_withChildren]

/-! ### Claims -/

/-- C1: for a path segment with no trailing force marker, `_ObtainElement`
searches the parent's direct children for an exact tag match: the first
matching child (in document order) is reused and the tree is untouched; with
no match a fresh child with that tag is created and appended; in either case
the resolved child is the parent for the remaining segments. -/
theorem obtain_nonforce_step (parent : Element) (part : String) (rest : List String)
    (hnf : endsWithPlus part = false) :
    ((∃ c ∈ parent.children, c.tag = part) →
      ∃ i c, findChildIdx part parent.children = some i ∧
        parent.children[i]? = some c ∧ c.tag = part ∧
        (∀ j, j < i → ∀ c1, parent.children[j]? = some c1 → c1.tag ≠ part) ∧
        obtainStep parent part = (parent, i)) ∧
    ((∀ c ∈ parent.children, c.tag ≠ part) →
      obtainStep parent part =
        (parent.withChildren (parent.children ++ [newElement part]),
         parent.children.length)) ∧
    (obtainAux parent (part :: rest) =
      ((obtainStep parent part).1.withChildren
        ((obtainStep parent part).1.children.set (obtainStep parent part).2
          (obtainAux (((obtainStep parent part).1.children[(obtainStep parent part).2]?).getD
            (newElement "")) rest).1),
       (obtainStep parent part).2 ::
         (obtainAux (((obtainStep parent part).1.children[(obtainStep parent part).2]?).getD
           (newElement "")) rest).2)) := by
  refine ⟨?_, ?_, rfl⟩
  · intro hex
    cases hf : findChildIdx part parent.children with
    | none =>
      obtain ⟨c, hc, htag⟩ := hex
      exact absurd htag (findChildIdx_eq_none.mp hf c hc)
    | some i =>
      obtain ⟨c, hget, htag, hfirst⟩ := findChildIdx_eq_some hf
      exact ⟨i, c, rfl, hget, htag, hfirst, by simp [obtainStep, hnf, hf]⟩
  · intro hnone
    have hf : findChildIdx part parent.children = none := findChildIdx_eq_none.mpr hnone
    simp [obtainStep, hnf, hf]

/-- C1 witness: resolving the single non-force segment `"a"` under a
childless root creates and appends a fresh `a` child at index `0`. -/
theorem obtain_nonforce_step_witness :
    obtainStep (newElement "r") "a" = (Element.mk "r" [] none [newElement "a"], 0) :=
  (obtain_nonforce_step (newElement "r") "a" [] rfl).2.1
    (by simp [newElement, Element.children])

/-- C2: a segment ending in the force marker `'+'` strips the marker and
unconditionally appends a new child, even when same-named children exist;
resolving `t ++ "+"` twice from the same parent yields two distinct index
paths, both pointing at children with tag `t`, and grows the child list by
two. -/
theorem obtain_force_creates (parent : Element) (part : String)
    (hp : endsWithPlus part = true) :
    obtainStep parent part =
      (parent.withChildren (parent.children ++ [newElement (dropLastChar part)]),
       parent.children.length) ∧
    ∀ (t : String) (root : Element), ('/' : Char) ∉ t.data →
      ObtainElement root (t ++ "+") =
        (root.withChildren (root.children ++ [newElement t]),
         [root.children.length]) ∧
      ObtainElement (root.withChildren (root.children ++ [newElement t])) (t ++ "+") =
        ((root.withChildren (root.children ++ [newElement t])).withChildren
          ((root.children ++ [newElement t]) ++ [newElement t]),
         [root.children.length + 1]) ∧
      ([root.children.length] : List Nat) ≠ [root.children.length + 1] ∧
      (getAt ((root.withChildren (root.children ++ [newElement t])).withChildren
          ((root.children ++ [newElement t]) ++ [newElement t]))
        [root.children.length]).map Element.tag = some t ∧
      (getAt ((root.withChildren (root.children ++ [newElement t])).withChildren
          ((root.children ++ [newElement t]) ++ [newElement t]))
        [root.children.length + 1]).map Element.tag = some t ∧
      (((root.withChildren (root.children ++ [newElement t])).withChildren
          ((root.children ++ [newElement t]) ++ [newElement t])).children).length =
        root.children.length + 2 := by
  constructor
  · simp [obtainStep, hp]
  · intro t root hs
    have h1 := ObtainElement_force root t hs
    have h2 := ObtainElement_force (root.withChildren (root.children ++ [newElement t])) t hs
    rw [children_withChildren] at h2
    have hmem : ((root.children ++ [newElement t]) ++ [newElement t])[root.children.length]? =
        some (newElement t) := by
      rw [List.getElem?_append, if_pos (by simp)]
      exact List.getElem?_concat_length _ _
    have hmem2 : ((root.children ++ [newElement t]) ++ [newElement t])[root.children.length + 1]? =
        some (newElement t) := by
      have h3 := List.getElem?_concat_length (root.children ++ [newElement t]) (newElement t)
      simpa using h3
    refine ⟨h1, ?_, by simp, ?_, ?_, by simp [children_withChildren]⟩
    · rw [h2]
      simp
    · simp only [getAt, children_withChildren]
      rw [hmem]
      rfl
    · simp only [getAt, children_withChildren]
      rw [hmem2]
      rfl

/-- C2 witness: the forced segment `"a+"` appends a fresh `a` child under a
childless root. -/
theorem obtain_force_creates_witness :
    obtainStep (newElement "r") "a+" = (Element.mk "r" [] none [newElement "a"], 0) :=
  (obtain_force_creates (newElement "r") "a+" rfl).1

/-- C3: resolving a single non-empty, non-force segment `t` twice in
sequence returns the same tree and the same element path both times, and the
resolved element has tag `t`. -/
theorem resolve_twice_same (root : Element) (t : String) (h1 : t ≠ "")
    (h2 : endsWithPlus t = false) (h3 : ('/' : Char) ∉ t.data) :
    ObtainElement (ObtainElement root t).1 t = ObtainElement root t ∧
    (getAt (ObtainElement root t).1 (ObtainElement root t).2).map Element.tag =
      some t := by
  have hsplit : splitSlash t = [t] := splitSlash_single h3
  have hnf : ∀ p ∈ splitSlash t, endsWithPlus p = false := by
    rw [hsplit]
    simp [h2]
  have hF : Finds (obtainAux root [t]).1 [t] (obtainAux root [t]).2 :=
    obtainAux_finds [t] (by simp [h2]) root
  constructor
  · simp only [ObtainElement, if_neg h1, hsplit]
    rw [finds_obtainAux hF]
  · simp only [ObtainElement, if_neg h1, hsplit]
    rcases hF with _ | ⟨hnf1, hfind, hget, hrest⟩
    rcases hrest
    obtain ⟨c1, hget1, htag1, -⟩ := findChildIdx_eq_some hfind
    rw [hget1] at hget
    cases hget
    simp [getAt, hget1, htag1]

/-- C3 witness: resolving `"a"` twice from a childless root returns the same
result both times. -/
theorem resolve_twice_same_witness :
    ObtainElement (ObtainElement (newElement "r") "a").1 "a" =
      ObtainElement (newElement "r") "a" :=
  (resolve_twice_same (newElement "r") "a" (by decide) rfl (by decide)).1

/-- C4: the empty path resolves to the current (root) element itself, not to
a child, and creates no element (the tree is unchanged). -/
theorem empty_path_resolves_to_root (root : Element) :
    ObtainElement root "" = (root, []) ∧
    getAt root [] = some root ∧
    countElems (ObtainElement root "").1 = countElems root :=
  ⟨rfl, rfl, rfl⟩

/-- C6: constructing a facade fails exactly when the argument is neither a
tag-name string (which creates a fresh root) nor an existing element (which
is wrapped); `__getitem__` fails exactly when the path contains `'@'`. -/
theorem init_and_get_errors :
    (∀ a : RootArg, factoryInit a = none ↔ a = RootArg.other) ∧
    (∀ s, factoryInit (RootArg.str s) = some (newElement s)) ∧
    (∀ e, factoryInit (RootArg.elem e) = some e) ∧
    (∀ (root : Element) (name : String),
      getitem root name = none ↔ containsAtSign name = true) := by
  refine ⟨?_, fun s => rfl, fun e => rfl, ?_⟩
  · intro a
    cases a <;> simp [factoryInit]
  · intro root name
    by_cases h : containsAtSign name <;> simp [getitem, h]

/-- C9: with the header flag set, `Print` writes exactly the fixed
declaration line followed by a newline and then the pretty-printed tree;
with the flag unset, only the tree; `GetContents` returns precisely what
`Print` writes into a fresh in-memory buffer. -/
theorem print_header_and_contents (pretty : Element → String) (root : Element)
    (oss : String) :
    PrintTo pretty root true oss = oss ++ xmlHeaderLine ++ pretty root ∧
    PrintTo pretty root false oss = oss ++ pretty root ∧
    xmlHeaderLine = "<?xml version=\"1.0\" ?>\n" ∧
    (∀ b, GetContents pretty root b = PrintTo pretty root b "") ∧
    GetContents pretty root true = xmlHeaderLine ++ pretty root ∧
    GetContents pretty root false = pretty root :=
  ⟨rfl, rfl, rfl, fun _ => rfl, rfl, rfl⟩

/-- C10: a `Set` name with two or more `'@'` characters makes
`name.rsplit('@')` produce more than two parts, so tuple unpacking raises
`ValueError` before any tree mutation: `__setitem__` errors out. -/
theorem setitem_double_at_errors (root : Element) (name : String) (v : PyValue)
    (h : 2 ≤ countChar '@' name.data) :
    setitem root name v = none := by
  have hc : containsAtSign name = true := by
    unfold containsAtSign
    exact any_of_countChar (by omega)
  have hlen : (splitAtSign name).length = countChar '@' name.data + 1 := by
    unfold splitAtSign
    rw [List.length_map, splitChars_length]
  rcases hsp : splitAtSign name with _ | ⟨a, _ | ⟨b, _ | ⟨c, l3⟩⟩⟩
  · rw [hsp] at hlen
    simp only [List.length_nil] at hlen
    omega
  · rw [hsp] at hlen
    simp only [List.length_cons, List.length_nil] at hlen
    omega
  · rw [hsp] at hlen
    simp only [List.length_cons, List.length_nil] at hlen
    omega
  · simp [setitem, hc, hsp]

/-- C10 witness: setting through the name `"a@b@c"` errors out. -/
theorem setitem_double_at_errors_witness :
    setitem (newElement "r") "a@b@c" (PyValue.str "v") = none :=
  setitem_double_at_errors (newElement "r") "a@b@c" (PyValue.str "v") (by decide)

/-- C5: `__setitem__` with an attribute marker splits the name into the
element path and the attribute name, resolves the element path and sets that
attribute to the string form of the value; without a marker it resolves the
whole name and sets the element's text to the string form of the value; in
both cases the returned facade wraps the affected element (the returned path
points at it and is valid). -/
theorem setitem_sets_attr_or_text (root : Element) (name : String) (v : PyValue) :
    (containsAtSign name = false →
      setitem root name v =
        some (updAt (fun e => e.setText (pyStr v)) (ObtainElement root name).1
                (ObtainElement root name).2,
              (ObtainElement root name).2) ∧
      ∃ x, getAt (ObtainElement root name).1 (ObtainElement root name).2 = some x ∧
        getAt (updAt (fun e => e.setText (pyStr v)) (ObtainElement root name).1
                 (ObtainElement root name).2)
              (ObtainElement root name).2 = some (x.setText (pyStr v)) ∧
        (x.setText (pyStr v)).text = some (pyStr v)) ∧
    (∀ ep an, name = ep ++ "@" ++ an →
      ('@' : Char) ∉ ep.data → ('@' : Char) ∉ an.data →
      setitem root name v =
        some (updAt (fun e => e.setAttr an (pyStr v)) (ObtainElement root ep).1
                (ObtainElement root ep).2,
              (ObtainElement root ep).2) ∧
      ∃ x, getAt (ObtainElement root ep).1 (ObtainElement root ep).2 = some x ∧
        getAt (updAt (fun e => e.setAttr an (pyStr v)) (ObtainElement root ep).1
                 (ObtainElement root ep).2)
              (ObtainElement root ep).2 = some (x.setAttr an (pyStr v)) ∧
        lookupKey an (x.setAttr an (pyStr v)).attrib = some (pyStr v)) := by
  constructor
  · intro hat
    refine ⟨by simp [setitem, hat], ?_⟩
    obtain ⟨x, hx⟩ := ObtainElement_getAt root name
    exact ⟨x, hx, getAt_updAt _ _ _ _ hx, text_setText x (pyStr v)⟩
  · intro ep an hname h1 h2
    subst hname
    have hc := containsAtSign_append_at ep an
    have hsp := splitAtSign_append_at h1 h2
    refine ⟨by simp [setitem, hc, hsp], ?_⟩
    obtain ⟨x, hx⟩ := ObtainElement_getAt root ep
    refine ⟨x, hx, getAt_updAt _ _ _ _ hx, ?_⟩
    rw [attrib_setAttr]
    exact lookupKey_setKey_self an (pyStr v) x.attrib

/-- C5 witness: setting the plain name `"a"` under a childless root stores
the text on the fresh `a` child and returns it. -/
theorem setitem_sets_attr_or_text_witness :
    setitem (newElement "r") "a" (PyValue.str "X") =
      some (Element.mk "r" [] none [Element.mk "a" [] (some "X") []], [0]) :=
  ((setitem_sets_attr_or_text (newElement "r") "a" (PyValue.str "X")).1 rfl).1

/-- C7: setting a text value twice through the same marker-free, force-free
path resolves to the same element path both times, leaves the text equal to
the last value assigned, and creates no duplicate element on the second
assignment (the element count is unchanged). -/
theorem setitem_text_last_write_wins (root : Element) (name : String)
    (v1 v2 : PyValue) (hat : containsAtSign name = false)
    (hnf : ∀ p ∈ splitSlash name, endsWithPlus p = false) :
    ∃ r1 pth, setitem root name v1 = some (r1, pth) ∧
      ∃ r2, setitem r1 name v2 = some (r2, pth) ∧
        (getAt r2 pth).map Element.text = some (some (pyStr v2)) ∧
        countElems r2 = countElems r1 := by
  refine ⟨updAt (fun e => e.setText (pyStr v1)) (ObtainElement root name).1
            (ObtainElement root name).2,
          (ObtainElement root name).2, by simp [setitem, hat], ?_⟩
  have hstable := @ObtainElement_stable root name hnf
      (fun e => e.setText (pyStr v1)) (fun x => tag_setText x (pyStr v1))
  refine ⟨updAt (fun e => e.setText (pyStr v2))
            (updAt (fun e => e.setText (pyStr v1)) (ObtainElement root name).1
              (ObtainElement root name).2)
            (ObtainElement root name).2, ?_, ?_, ?_⟩
  · simp [setitem, hat, hstable]
  · obtain ⟨x, hx⟩ := ObtainElement_getAt root name
    have hx1 := getAt_updAt (fun e => e.setText (pyStr v1)) _ _ _ hx
    have hx2 := getAt_updAt (fun e => e.setText (pyStr v2)) _ _ _ hx1
    rw [hx2]
    simp [text_setText]
  · exact countElems_updAt _ (fun x => countElems_setText x (pyStr v2)) _ _

/-- C7 witness: setting `alpha/delta` to `"XXX"` and then to `"YYY"` under a
childless root ends with text `"YYY"` and no duplicate element. -/
theorem setitem_text_last_write_wins_witness :
    containsAtSign "alpha/delta" = false ∧
    (∃ r1 pth,
      setitem (newElement "r") "alpha/delta" (PyValue.str "XXX") = some (r1, pth) ∧
      ∃ r2, setitem r1 "alpha/delta" (PyValue.str "YYY") = some (r2, pth) ∧
        (getAt r2 pth).map Element.text =
          some (some (pyStr (PyValue.str "YYY"))) ∧
        countElems r2 = countElems r1) :=
  ⟨rfl, setitem_text_last_write_wins (newElement "r") "alpha/delta"
    (PyValue.str "XXX") (PyValue.str "YYY") rfl (by decide)⟩

/-- C8: setting an attribute through `ep ++ "@" ++ an` creates or reuses the
element addressed by `ep` and sets its attribute `an` to the string form of
the value, while its text, its children, its other attributes and the total
element count are unchanged. -/
theorem setattr_frame (root : Element) (ep an : String) (v : PyValue)
    (h1 : ('@' : Char) ∉ ep.data) (h2 : ('@' : Char) ∉ an.data) :
    ∃ x, getAt (ObtainElement root ep).1 (ObtainElement root ep).2 = some x ∧
      setitem root (ep ++ "@" ++ an) v =
        some (updAt (fun e => e.setAttr an (pyStr v)) (ObtainElement root ep).1
                (ObtainElement root ep).2,
              (ObtainElement root ep).2) ∧
      getAt (updAt (fun e => e.setAttr an (pyStr v)) (ObtainElement root ep).1
               (ObtainElement root ep).2)
            (ObtainElement root ep).2 = some (x.setAttr an (pyStr v)) ∧
      (x.setAttr an (pyStr v)).text = x.text ∧
      (x.setAttr an (pyStr v)).children = x.children ∧
      lookupKey an (x.setAttr an (pyStr v)).attrib = some (pyStr v) ∧
      (∀ k, k ≠ an →
        lookupKey k (x.setAttr an (pyStr v)).attrib = lookupKey k x.attrib) ∧
      countElems (updAt (fun e => e.setAttr an (pyStr v)) (ObtainElement root ep).1
        (ObtainElement root ep).2) = countElems (ObtainElement root ep).1 := by
  obtain ⟨x, hx⟩ := ObtainElement_getAt root ep
  refine ⟨x, hx, ?_, getAt_updAt _ _ _ _ hx, text_setAttr x an (pyStr v),
    children_setAttr x an (pyStr v), ?_, ?_,
    countElems_updAt _ (fun y => countElems_setAttr y an (pyStr v)) _ _⟩
  · simp [setitem, containsAtSign_append_at ep an, splitAtSign_append_at h1 h2]
  · rw [attrib_setAttr]
    exact lookupKey_setKey_self an (pyStr v) x.attrib
  · intro k hk
    rw [attrib_setAttr]
    exact lookupKey_setKey_of_ne an k (pyStr v) hk x.attrib

/-- C8 witness: setting `alpha/bravo@cls` to `"X"` under a childless root
creates `alpha/bravo`, sets its `cls` attribute and leaves its text alone. -/
theorem setattr_frame_witness :
    ∃ x, getAt (ObtainElement (newElement "r") "alpha/bravo").1
           (ObtainElement (newElement "r") "alpha/bravo").2 = some x ∧
      setitem (newElement "r") "alpha/bravo@cls" (PyValue.str "X") =
        some (updAt (fun e => e.setAttr "cls" (pyStr (PyValue.str "X")))
                (ObtainElement (newElement "r") "alpha/bravo").1
                (ObtainElement (newElement "r") "alpha/bravo").2,
              (ObtainElement (newElement "r") "alpha/bravo").2) ∧
      getAt (updAt (fun e => e.setAttr "cls" (pyStr (PyValue.str "X")))
               (ObtainElement (newElement "r") "alpha/bravo").1
               (ObtainElement (newElement "r") "alpha/bravo").2)
            (ObtainElement (newElement "r") "alpha/bravo").2 =
        some (x.setAttr "cls" (pyStr (PyValue.str "X"))) ∧
      (x.setAttr "cls" (pyStr (PyValue.str "X"))).text = x.text ∧
      (x.setAttr "cls" (pyStr (PyValue.str "X"))).children = x.children ∧
      lookupKey "cls" (x.setAttr "cls" (pyStr (PyValue.str "X"))).attrib =
        some (pyStr (PyValue.str "X")) ∧
      (∀ k, k ≠ "cls" →
        lookupKey k (x.setAttr "cls" (pyStr (PyValue.str "X"))).attrib =
          lookupKey k x.attrib) ∧
      countElems (updAt (fun e => e.setAttr "cls" (pyStr (PyValue.str "X")))
        (ObtainElement (newElement "r") "alpha/bravo").1
        (ObtainElement (newElement "r") "alpha/bravo").2) =
        countElems (ObtainElement (newElement "r") "alpha/bravo").1 :=
  setattr_frame (newElement "r") "alpha/bravo" "cls" (PyValue.str "X")
    (by decide) (by decide)

end XmlFactory
